import Mathlib

/-!
Verification of the document comparison / diff engine of the
`transmutation` comparison scripts.

The scripts (`compare_modes.py`, `compare_detailed.py`, `detailed_diff.py`,
`analyze_diff.py`) delegate sequence alignment to `difflib.SequenceMatcher`,
whose source is not part of the repository; the aligner is therefore
modelled from the spec (section 4.1): a greedy recursive longest common
contiguous run alignment with ties broken by earliest start in the first
sequence, then earliest start in the second, a similarity ratio
`2 * M / (lenA + lenB)` with the both-empty convention of ratio 1, and
diff opcodes read off the match blocks.  The glue logic of the scripts
(section splitting, marker search, issue bucket counting, windowing) is
embedded directly from the Python source.
-/

set_option maxRecDepth 40000

namespace Transmutation

/-- Length of the longest common prefix of two lists, i.e. the length of
the run of pairwise equal elements starting at the heads. -/
def commonRun {α : Type} [DecidableEq α] : List α → List α → Nat
  | x :: xs, y :: ys => if x = y then commonRun xs ys + 1 else 0
  | _, _ => 0

/-- Modelled from the spec: all candidate match triples `(i, j, k)` where
`k` is the length of the common run of the two sequences starting at
offsets `i` in A and `j` in B (difflib's `find_longest_match` search
space; difflib itself is not in the repository sources). -/
def candidates {α : Type} [DecidableEq α] (a b : List α) : List (Nat × Nat × Nat) :=
  (List.range a.length).flatMap fun i =>
    (List.range b.length).map fun j => (i, j, commonRun (a.drop i) (b.drop j))

/-- Modelled from the spec: keep the strictly longest candidate while
scanning in order, so ties among equal-length longest matches are broken
by earliest start in A, then earliest start in B. -/
def pickBest : List (Nat × Nat × Nat) → Nat × Nat × Nat :=
  List.foldl (fun best c => if best.2.2 < c.2.2 then c else best) (0, 0, 0)

/-- Modelled from the spec: the longest contiguous common run of the two
sequences, with the spec's deterministic tie-breaking. -/
def findLongestMatch {α : Type} [DecidableEq α] (a b : List α) : Nat × Nat × Nat :=
  pickBest (candidates a b)

/-- Modelled from the spec: the greedy recursive alignment. It finds the
longest contiguous common run, splits around it, and recurses on the
left and right unmatched sub-ranges; block offsets of the right recursion
are shifted back into the coordinates of the full sequences.  The
recursion is driven by a fuel argument so that the definition reduces by
computation; `matchingBlocks` below supplies sufficient fuel. -/
def matchingBlocksF {α : Type} [DecidableEq α] : Nat → List α → List α → List (Nat × Nat × Nat)
  | 0, _, _ => []
  | fuel + 1, a, b =>
    if (findLongestMatch a b).2.2 = 0 then []
    else
      let i := (findLongestMatch a b).1
      let j := (findLongestMatch a b).2.1
      let k := (findLongestMatch a b).2.2
      matchingBlocksF fuel (a.take i) (b.take j) ++
        (i, j, k) ::
          (matchingBlocksF fuel (a.drop (i + k)) (b.drop (j + k))).map
            (fun blk => (blk.1 + (i + k), blk.2.1 + (j + k), blk.2.2))

/-- Modelled from the spec: the match block list of the greedy alignment.
Each recursive call strictly shrinks the first sequence, so its length is
sufficient fuel. -/
def matchingBlocks {α : Type} [DecidableEq α] (a b : List α) : List (Nat × Nat × Nat) :=
  matchingBlocksF a.length a b

/-- Total matched element count of a block list. -/
def sumK (l : List (Nat × Nat × Nat)) : Nat :=
  (l.map fun blk => blk.2.2).sum

/-- Modelled from the spec: `M`, the total matched element count. -/
def sumMatches {α : Type} [DecidableEq α] (a b : List α) : Nat :=
  sumK (matchingBlocks a b)

/-- Modelled from the spec: `ratio = 2 * M / (lenA + lenB)`, and 1 by
convention when both inputs are empty (difflib's `_calculate_ratio`). -/
def ratio {α : Type} [DecidableEq α] (a b : List α) : ℚ :=
  if a.length + b.length = 0 then 1
  else 2 * (sumMatches a b : ℚ) / ((a.length : ℚ) + (b.length : ℚ))

/-- Hunk tags of the diff classifier. -/
inductive Tag where
  | equal
  | insert
  | delete
  | replace
deriving DecidableEq

/-- A diff hunk: a tagged pair of half-open ranges, `[a1, a2)` in the
first sequence and `[b1, b2)` in the second. -/
structure Opcode where
  tag : Tag
  a1 : Nat
  a2 : Nat
  b1 : Nat
  b2 : Nat
deriving DecidableEq

/-- Modelled from the spec: the gap between the current position and the
next match block becomes a replace (both sides advance), delete (only A
advances) or insert (only B advances) hunk, or nothing when empty. -/
def gapOp (i ai j bj : Nat) : List Opcode :=
  if i < ai ∧ j < bj then [⟨Tag.replace, i, ai, j, bj⟩]
  else if i < ai then [⟨Tag.delete, i, ai, j, bj⟩]
  else if j < bj then [⟨Tag.insert, i, ai, j, bj⟩]
  else []

/-- Modelled from the spec: walk the match blocks in order, emitting the
gap hunk before each block and an equal hunk for the block itself; the
final gap runs to the ends of both sequences. -/
def opcodesAux (la lb : Nat) : Nat → Nat → List (Nat × Nat × Nat) → List Opcode
  | i, j, [] => gapOp i la j lb
  | i, j, (ai, bj, size) :: rest =>
      gapOp i ai j bj ++ ⟨Tag.equal, ai, ai + size, bj, bj + size⟩ ::
        opcodesAux la lb (ai + size) (bj + size) rest

/-- Modelled from the spec: the ordered hunk list covering the full
aligned range of the two sequences. -/
def opcodes {α : Type} [DecidableEq α] (a b : List α) : List Opcode :=
  opcodesAux a.length b.length 0 0 (matchingBlocks a b)

/-- Match blocks are in-bounds, of positive size, strictly increasing and
non-overlapping in both sequences, starting no earlier than `(i, j)` and
ending no later than `(la, lb)`. -/
def Chained : Nat → Nat → List (Nat × Nat × Nat) → Nat → Nat → Prop
  | i, j, [], la, lb => i ≤ la ∧ j ≤ lb
  | i, j, (ai, bj, size) :: rest, la, lb =>
      i ≤ ai ∧ j ≤ bj ∧ 1 ≤ size ∧ Chained (ai + size) (bj + size) rest la lb

/-- Executable check that a hunk list exactly tiles the ranges up to
`(la, lb)`: each hunk starts exactly where the previous one ended on both
sides (no gaps, no overlaps), ranges are monotone, and the final hunk
ends exactly at `(la, lb)`. -/
def tilesFrom : Nat → Nat → List Opcode → Nat → Nat → Bool
  | i, j, [], la, lb => i == la && j == lb
  | i, j, op :: rest, la, lb =>
      op.a1 == i && op.b1 == j && decide (i ≤ op.a2) && decide (j ≤ op.b2) &&
        tilesFrom op.a2 op.b2 rest la lb

/-- Boolean prefix test on lists (Python `startswith`). -/
def isPrefixL {α : Type} [DecidableEq α] : List α → List α → Bool
  | [], _ => true
  | _ :: _, [] => false
  | x :: xs, y :: ys => x = y && isPrefixL xs ys

/-- Boolean substring containment (Python `pat in s`). -/
def containsSub {α : Type} [DecidableEq α] (pat : List α) : List α → Bool
  | [] => pat.isEmpty
  | x :: rest => isPrefixL pat (x :: rest) || containsSub pat rest

/-- Helper of `splitLines`: accumulates the current line in reverse. -/
def splitLinesAux : List Char → List Char → List (List Char)
  | cur, [] => [cur.reverse]
  | cur, c :: rest =>
    if c = '\n' then cur.reverse :: splitLinesAux [] rest
    else splitLinesAux (c :: cur) rest

/-- Python `text.split('\n')` as used by `compare_detailed.py`: the empty
text gives one empty line, and a trailing newline gives a trailing empty
line. -/
def splitLines (s : List Char) : List (List Char) :=
  splitLinesAux [] s

/-- Helper of `splitOnPat`, with explicit fuel so that it reduces by
computation; the length of the remaining input is sufficient fuel. -/
def splitOnPatAux (pat : List Char) : Nat → List Char → List Char → List (List Char)
  | _, cur, [] => [cur.reverse]
  | 0, cur, _ => [cur.reverse]
  | fuel + 1, cur, c :: rest =>
    if isPrefixL pat (c :: rest) then
      cur.reverse :: splitOnPatAux pat fuel [] (rest.drop (pat.length - 1))
    else
      splitOnPatAux pat fuel (c :: cur) rest

/-- Python `re.split(pattern, s)` for a literal (regex-free) pattern:
split on non-overlapping occurrences scanned left to right. -/
def splitOnPat (pat : List Char) (s : List Char) : List (List Char) :=
  splitOnPatAux pat s.length [] s

/-- The section separator of `compare_detailed.py` (`re.split(r'\n## ', ...)`). -/
def sectPat : List Char := "\n## ".toList

/-- Section splitting of `compare_detailed.py`. -/
def splitSections (s : List Char) : List (List Char) :=
  splitOnPat sectPat s

/-- Helper of `find_section`, carrying the current index. -/
def findSectionAux (pat : List Char) : Nat → List (List Char) → Nat
  | _, [] => 0
  | i, l :: rest => if containsSub pat l then i else findSectionAux pat (i + 1) rest

/-- `find_section` of `detailed_diff.py`: the index of the first line
containing the pattern, and 0 when no line contains it. -/
def find_section (lines : List (List Char)) (pat : List Char) : Nat :=
  findSectionAux pat 0 lines

/-- The start marker of the abstract section in `detailed_diff.py`. -/
def abstractPat : List Char := "## Abstract".toList

/-- The start marker of the introduction section in `detailed_diff.py`. -/
def introPat : List Char := "## 1 Introduction".toList

/-- Python `lines[s:e]` followed by `''.join(...)`. -/
def sliceJoin (lines : List (List Char)) (s e : Nat) : List Char :=
  ((lines.drop s).take (e - s)).flatten

/-- The abstract-section comparison of `detailed_diff.py` (lines 56-65):
all four marker indices are truthy (nonzero) or the comparison is
skipped. -/
def abstractSim (docling precision : List (List Char)) : Option ℚ :=
  let ad := find_section docling abstractPat
  let ap := find_section precision abstractPat
  let bd := find_section docling introPat
  let bp := find_section precision introPat
  if ad ≠ 0 ∧ ap ≠ 0 ∧ bd ≠ 0 ∧ bp ≠ 0 then
    some (ratio (sliceJoin docling ad bd) (sliceJoin precision ap bp) * 100)
  else none

/-- The whole-text similarity of `compare_modes.py` and
`test_precision.py`: character-level ratio of the two texts, as a
percentage. -/
def fastSim (x y : List Char) : ℚ := ratio x y * 100

/-- The values printed by `compare_modes.py`: fast similarity, precision
similarity, and improvement. -/
def compareModesReport (fast precision docling : List Char) : ℚ × ℚ × ℚ :=
  (fastSim fast docling, fastSim precision docling,
    fastSim precision docling - fastSim fast docling)

/-- Helper of `sectionReport`: walks the enumerated section pairs,
skipping short reference sections, and extracting the first line of each
kept reference section (a Python `[0]` index, modelled as `none` when it
would raise). -/
def sectionReportAux : List (Nat × List Char × List Char) → Option (List (Nat × List Char × ℚ))
  | [] => some []
  | (i, dsec, psec) :: rest =>
    if dsec.length < 10 then sectionReportAux rest
    else
      match (splitLines dsec).head? with
      | none => none
      | some firstLine =>
        match sectionReportAux rest with
        | none => none
        | some tail => some ((i, firstLine.take 50, ratio dsec psec * 100) :: tail)

/-- The section-similarity loop of `compare_detailed.py` (lines 68-76):
`enumerate(zip(docling_sections[:5], precision_sections[:5]))`, skipping
reference sections shorter than 10 characters, reporting the index, the
truncated first line as title, and the pair's percentage ratio. -/
def sectionReport (docling precision : List Char) : Option (List (Nat × List Char × ℚ)) :=
  sectionReportAux ((((splitSections docling).take 5).zip
    ((splitSections precision).take 5)).enum)

/-- Issue kinds of `detailed_diff.py`: a line missing from the candidate
output or an extra line in it. -/
inductive IKind where
  | missing
  | extra
deriving DecidableEq

/-- A diff issue of `detailed_diff.py`: kind plus stripped line content. -/
structure Issue where
  kind : IKind
  content : List Char
deriving DecidableEq

/-- Whether an issue is a missing line. -/
def isMissing : IKind → Bool
  | IKind.missing => true
  | IKind.extra => false

/-- Whether an issue is an extra line. -/
def isExtra : IKind → Bool
  | IKind.missing => false
  | IKind.extra => true

/-- The header marker of `detailed_diff.py` (`content.startswith('##')`). -/
def hhPat : List Char := "##".toList

/-- The word searched by the wrong-joins rule. -/
def absWord : List Char := "Abstract".toList

/-- The other word searched by the wrong-joins rule. -/
def introWord : List Char := "Introduction".toList

/-- `missing_breaks` of `detailed_diff.py` line 34: missing issues with
empty content. -/
def missing_breaks (issues : List Issue) : Nat :=
  issues.countP fun i => isMissing i.kind && i.content.isEmpty

/-- `extra_breaks` of `detailed_diff.py` line 35: extra issues with empty
content. -/
def extra_breaks (issues : List Issue) : Nat :=
  issues.countP fun i => isExtra i.kind && i.content.isEmpty

/-- `missing_headers` of `detailed_diff.py` line 36: missing issues whose
content starts with the header marker. -/
def missing_headers (issues : List Issue) : Nat :=
  issues.countP fun i => isMissing i.kind && isPrefixL hhPat i.content

/-- `wrong_joins` of `detailed_diff.py` line 37, with Python's operator
precedence: `t == 'extra' and 'Abstract' in content or 'Introduction' in
content` parses as a disjunction whose second arm ignores the kind. -/
def wrong_joins (issues : List Issue) : Nat :=
  issues.countP fun i =>
    (isExtra i.kind && containsSub absWord i.content) || containsSub introWord i.content

/-- Closed form of the section loop: a positional `filterMap` over the
enumerated zip of the first five sections of each document. -/
def sectionEntriesSpec (docling precision : List Char) : List (Nat × List Char × ℚ) :=
  ((((splitSections docling).take 5).zip ((splitSections precision).take 5)).enum).filterMap
    fun x =>
      if x.2.1.length < 10 then none
      else some (x.1, ((splitLines x.2.1).headD []).take 50, ratio x.2.1 x.2.2 * 100)

theorem commonRun_le_left {α : Type} [DecidableEq α] :
    ∀ x y : List α, commonRun x y ≤ x.length
  | [], _ => Nat.zero_le _
  | _ :: _, [] => Nat.zero_le _
  | x :: xs, y :: ys => by
    by_cases h : x = y
    · simpa [commonRun, h, Nat.succ_le_succ_iff] using commonRun_le_left xs ys
    · simp [commonRun, h]

theorem commonRun_le_right {α : Type} [DecidableEq α] :
    ∀ x y : List α, commonRun x y ≤ y.length
  | [], _ => Nat.zero_le _
  | _ :: _, [] => Nat.zero_le _
  | x :: xs, y :: ys => by
    by_cases h : x = y
    · simpa [commonRun, h, Nat.succ_le_succ_iff] using commonRun_le_right xs ys
    · simp [commonRun, h]

theorem commonRun_self {α : Type} [DecidableEq α] :
    ∀ x : List α, commonRun x x = x.length
  | [] => rfl
  | x :: xs => by simp [commonRun, commonRun_self xs]

/-- The common run really is common: both lists start with the same
prefix of that length. -/
theorem commonRun_take {α : Type} [DecidableEq α] :
    ∀ x y : List α, x.take (commonRun x y) = y.take (commonRun x y)
  | [], _ => by simp [commonRun]
  | _ :: _, [] => by simp [commonRun]
  | x :: xs, y :: ys => by
    by_cases h : x = y
    · simp [commonRun, h, commonRun_take xs ys]
    · simp [commonRun, h]

theorem commonRun_pos {α : Type} [DecidableEq α] :
    ∀ x y : List α, commonRun x y ≠ 0 →
      ∃ c xs ys, x = c :: xs ∧ y = c :: ys
  | [], _, h => absurd rfl h
  | _ :: _, [], h => absurd rfl h
  | x :: xs, y :: ys, h => by
    by_cases hxy : x = y
    · exact ⟨x, xs, ys, rfl, by rw [hxy]⟩
    · simp [commonRun, hxy] at h

theorem commonRun_pos_of_head_eq {α : Type} [DecidableEq α]
    (c : α) (xs ys : List α) : 1 ≤ commonRun (c :: xs) (c :: ys) := by
  simp [commonRun]

theorem mem_candidates_iff {α : Type} [DecidableEq α] {a b : List α}
    {c : Nat × Nat × Nat} :
    c ∈ candidates a b ↔
      c.1 < a.length ∧ c.2.1 < b.length ∧
        c.2.2 = commonRun (a.drop c.1) (b.drop c.2.1) := by
  constructor
  · intro h
    rcases List.mem_flatMap.mp h with ⟨i, hi, hmem⟩
    rcases List.mem_map.mp hmem with ⟨j, hj, rfl⟩
    exact ⟨List.mem_range.mp hi, List.mem_range.mp hj, rfl⟩
  · intro ⟨h1, h2, h3⟩
    refine List.mem_flatMap.mpr ⟨c.1, List.mem_range.mpr h1, ?_⟩
    refine List.mem_map.mpr ⟨c.2.1, List.mem_range.mpr h2, ?_⟩
    rw [← h3]

theorem pickBest_foldl_init_le (l : List (Nat × Nat × Nat)) :
    ∀ init : Nat × Nat × Nat,
      init.2.2 ≤ (List.foldl (fun best c => if best.2.2 < c.2.2 then c else best) init l).2.2 := by
  induction l with
  | nil => intro init; exact le_rfl
  | cons c l ih =>
    intro init
    simp only [List.foldl_cons]
    by_cases h : init.2.2 < c.2.2
    · simp only [h, if_pos]
      exact le_trans (le_of_lt h) (ih c)
    · simp only [h, if_neg, not_false_iff]
      exact ih init

theorem pickBest_foldl_mem_le (l : List (Nat × Nat × Nat)) :
    ∀ (init : Nat × Nat × Nat) (c : Nat × Nat × Nat), c ∈ l →
      c.2.2 ≤ (List.foldl (fun best c => if best.2.2 < c.2.2 then c else best) init l).2.2 := by
  induction l with
  | nil => intro init c hc; cases hc
  | cons d l ih =>
    intro init c hc
    simp only [List.foldl_cons]
    rcases List.mem_cons.mp hc with rfl | hc
    · by_cases h : init.2.2 < c.2.2
      · simp only [h, if_pos]; exact pickBest_foldl_init_le l c
      · simp only [h, if_neg, not_false_iff]
        exact le_trans (le_of_not_lt h) (pickBest_foldl_init_le l init)
    · exact ih _ c hc

theorem pickBest_foldl_mem (l : List (Nat × Nat × Nat)) :
    ∀ init : Nat × Nat × Nat,
      (List.foldl (fun best c => if best.2.2 < c.2.2 then c else best) init l) = init ∨
      (List.foldl (fun best c => if best.2.2 < c.2.2 then c else best) init l) ∈ l := by
  induction l with
  | nil => intro init; exact Or.inl rfl
  | cons c l ih =>
    intro init
    simp only [List.foldl_cons]
    by_cases h : init.2.2 < c.2.2
    · simp only [h, if_pos]
      rcases ih c with h' | h'
      · exact Or.inr (by rw [h']; exact List.mem_cons_self c l)
      · exact Or.inr (List.mem_cons_of_mem _ h')
    · simp only [h, if_neg, not_false_iff]
      rcases ih init with h' | h'
      · exact Or.inl h'
      · exact Or.inr (List.mem_cons_of_mem _ h')

/-- Maximality: the chosen match is at least as long as the common run at
any pair of in-range offsets. -/
theorem findLongestMatch_max {α : Type} [DecidableEq α] (a b : List α)
    (i j : Nat) (hi : i < a.length) (hj : j < b.length) :
    commonRun (a.drop i) (b.drop j) ≤ (findLongestMatch a b).2.2 := by
  have hmem : ((i, j, commonRun (a.drop i) (b.drop j)) : Nat × Nat × Nat) ∈ candidates a b :=
    mem_candidates_iff.mpr ⟨hi, hj, rfl⟩
  exact pickBest_foldl_mem_le _ _ _ hmem

/-- Soundness: a nonzero result is an actual candidate. -/
theorem findLongestMatch_bounds {α : Type} [DecidableEq α] (a b : List α)
    (h : (findLongestMatch a b).2.2 ≠ 0) :
    (findLongestMatch a b).1 < a.length ∧
    (findLongestMatch a b).2.1 < b.length ∧
    (findLongestMatch a b).2.2 =
      commonRun (a.drop (findLongestMatch a b).1) (b.drop (findLongestMatch a b).2.1) := by
  rcases pickBest_foldl_mem (candidates a b) (0, 0, 0) with h' | h'
  · exact absurd (congrArg (fun p => p.2.2) h') h
  · exact mem_candidates_iff.mp h'

theorem findLongestMatch_nil_left {α : Type} [DecidableEq α] (b : List α) :
    findLongestMatch ([] : List α) b = (0, 0, 0) := rfl

theorem matchingBlocksF_nil_left {α : Type} [DecidableEq α] (f : Nat) (b : List α) :
    matchingBlocksF f ([] : List α) b = [] := by
  cases f with
  | zero => rfl
  | succ n => simp [matchingBlocksF, findLongestMatch_nil_left]

/-- The result of the fuelled recursion does not depend on the fuel, as
long as the fuel dominates the length of the first sequence. -/
theorem matchingBlocksF_fuel {α : Type} [DecidableEq α] :
    ∀ (f1 f2 : Nat) (a b : List α), a.length ≤ f1 → a.length ≤ f2 →
      matchingBlocksF f1 a b = matchingBlocksF f2 a b := by
  intro f1
  induction f1 with
  | zero =>
    intro f2 a b h1 h2
    have ha : a = [] := List.length_eq_zero.mp (by omega)
    subst ha
    rw [matchingBlocksF_nil_left, matchingBlocksF_nil_left]
  | succ n ih =>
    intro f2 a b h1 h2
    by_cases hk : (findLongestMatch a b).2.2 = 0
    · cases f2 with
      | zero =>
        have ha : a = [] := List.length_eq_zero.mp (by omega)
        subst ha
        rw [matchingBlocksF_nil_left, matchingBlocksF_nil_left]
      | succ m => simp [matchingBlocksF, hk]
    · have hbd := findLongestMatch_bounds a b hk
      have hi : (findLongestMatch a b).1 < a.length := hbd.1
      cases f2 with
      | zero => omega
      | succ m =>
        simp only [matchingBlocksF, hk, if_neg, not_false_iff]
        have hL : matchingBlocksF n (a.take (findLongestMatch a b).1)
              (b.take (findLongestMatch a b).2.1) =
            matchingBlocksF m (a.take (findLongestMatch a b).1)
              (b.take (findLongestMatch a b).2.1) := by
          apply ih
          · rw [List.length_take]
            have := min_le_left (findLongestMatch a b).1 a.length
            omega
          · rw [List.length_take]
            have := min_le_left (findLongestMatch a b).1 a.length
            omega
        have hR : matchingBlocksF n
              (a.drop ((findLongestMatch a b).1 + (findLongestMatch a b).2.2))
              (b.drop ((findLongestMatch a b).2.1 + (findLongestMatch a b).2.2)) =
            matchingBlocksF m
              (a.drop ((findLongestMatch a b).1 + (findLongestMatch a b).2.2))
              (b.drop ((findLongestMatch a b).2.1 + (findLongestMatch a b).2.2)) := by
          apply ih
          · rw [List.length_drop]
            omega
          · rw [List.length_drop]
            omega
        rw [hL, hR]

theorem sumK_append (l1 l2 : List (Nat × Nat × Nat)) :
    sumK (l1 ++ l2) = sumK l1 + sumK l2 := by
  simp [sumK]

theorem sumK_cons (blk : Nat × Nat × Nat) (l : List (Nat × Nat × Nat)) :
    sumK (blk :: l) = blk.2.2 + sumK l := by
  simp [sumK]

theorem sumK_map_shift (l : List (Nat × Nat × Nat)) (p q : Nat) :
    sumK (l.map fun blk => (blk.1 + p, blk.2.1 + q, blk.2.2)) = sumK l := by
  induction l with
  | nil => rfl
  | cons blk l ih => simp [sumK] at ih ⊢; omega

theorem matchingBlocks_eq_nil {α : Type} [DecidableEq α] {a b : List α}
    (h : (findLongestMatch a b).2.2 = 0) : matchingBlocks a b = [] := by
  rw [matchingBlocks]
  cases hL : a.length with
  | zero => rfl
  | succ n => simp [matchingBlocksF, h]

theorem matchingBlocks_eq_cons {α : Type} [DecidableEq α] {a b : List α}
    {i j k : Nat} (hm : findLongestMatch a b = (i, j, k)) (h : k ≠ 0) :
    matchingBlocks a b =
      matchingBlocks (a.take i) (b.take j) ++
        (i, j, k) ::
          (matchingBlocks (a.drop (i + k)) (b.drop (j + k))).map
            (fun blk => (blk.1 + (i + k), blk.2.1 + (j + k), blk.2.2)) := by
  have hk : (findLongestMatch a b).2.2 ≠ 0 := by rw [hm]; exact h
  have hbd := findLongestMatch_bounds a b hk
  have hi : i < a.length := by have := hbd.1; rw [hm] at this; exact this
  rcases hL : a.length with _ | n
  · omega
  · rw [matchingBlocks, hL]
    simp only [matchingBlocksF, hm]
    simp only [if_neg h]
    have hLtake : matchingBlocksF n (a.take i) (b.take j) =
        matchingBlocks (a.take i) (b.take j) := by
      rw [matchingBlocks]
      apply matchingBlocksF_fuel
      · rw [List.length_take]
        have := min_le_left i a.length
        omega
      · exact le_rfl
    have hLdrop : matchingBlocksF n (a.drop (i + k)) (b.drop (j + k)) =
        matchingBlocks (a.drop (i + k)) (b.drop (j + k)) := by
      rw [matchingBlocks]
      apply matchingBlocksF_fuel
      · rw [List.length_drop]
        omega
      · exact le_rfl
    rw [hLtake, hLdrop]

/-- Induction along the recursion structure of the greedy alignment. -/
theorem matchingBlocks_induct {α : Type} [DecidableEq α] (motive : List α → List α → Prop)
    (base : ∀ a b : List α, (findLongestMatch a b).2.2 = 0 → motive a b)
    (step : ∀ (a b : List α) (i j k : Nat), findLongestMatch a b = (i, j, k) → k ≠ 0 →
      motive (a.take i) (b.take j) → motive (a.drop (i + k)) (b.drop (j + k)) →
      motive a b) :
    ∀ a b : List α, motive a b := by
  have H : ∀ (n : Nat) (a b : List α), a.length ≤ n → motive a b := by
    intro n
    induction n with
    | zero =>
      intro a b hlen
      have ha : a = [] := List.length_eq_zero.mp (by omega)
      subst ha
      exact base [] b rfl
    | succ n ih =>
      intro a b hlen
      by_cases hk : (findLongestMatch a b).2.2 = 0
      · exact base a b hk
      · rcases hm : findLongestMatch a b with ⟨i, j, k⟩
        have hk' : k ≠ 0 := by rw [hm] at hk; simpa using hk
        have hbd := findLongestMatch_bounds a b (by rw [hm]; simpa using hk')
        have hi : i < a.length := by have := hbd.1; rw [hm] at this; exact this
        refine step a b i j k hm hk' (ih _ _ ?_) (ih _ _ ?_)
        · rw [List.length_take]
          have := min_le_left i a.length
          omega
        · rw [List.length_drop]
          omega
  exact fun a b => H a.length a b le_rfl

theorem sumMatches_le_left {α : Type} [DecidableEq α] (a b : List α) :
    sumMatches a b ≤ a.length := by
  induction a, b using matchingBlocks_induct with
  | base a b h => simp [sumMatches, matchingBlocks_eq_nil h, sumK]
  | step a b i j k hm hk0 ih1 ih2 =>
    have hb := findLongestMatch_bounds a b (by rw [hm]; simpa using hk0)
    rw [hm] at hb
    have hi : i < a.length := hb.1
    have hkc : k = commonRun (a.drop i) (b.drop j) := hb.2.2
    have hk : k ≤ a.length - i := by
      rw [hkc]
      have := commonRun_le_left (a.drop i) (b.drop j)
      simpa using this
    rw [sumMatches, matchingBlocks_eq_cons hm hk0, sumK_append, sumK_cons, sumK_map_shift]
    simp only [sumMatches] at ih1 ih2
    have h1 : sumK (matchingBlocks (a.take i) (b.take j)) ≤ i :=
      le_trans ih1 (by rw [List.length_take]; exact min_le_left _ _)
    have h2 : sumK (matchingBlocks (a.drop (i + k)) (b.drop (j + k))) ≤ a.length - (i + k) :=
      le_trans ih2 (by rw [List.length_drop])
    simp only
    omega

theorem sumMatches_le_right {α : Type} [DecidableEq α] (a b : List α) :
    sumMatches a b ≤ b.length := by
  induction a, b using matchingBlocks_induct with
  | base a b h => simp [sumMatches, matchingBlocks_eq_nil h, sumK]
  | step a b i j k hm hk0 ih1 ih2 =>
    have hb := findLongestMatch_bounds a b (by rw [hm]; simpa using hk0)
    rw [hm] at hb
    have hj : j < b.length := hb.2.1
    have hkc : k = commonRun (a.drop i) (b.drop j) := hb.2.2
    have hk : k ≤ b.length - j := by
      rw [hkc]
      have := commonRun_le_right (a.drop i) (b.drop j)
      simpa using this
    rw [sumMatches, matchingBlocks_eq_cons hm hk0, sumK_append, sumK_cons, sumK_map_shift]
    simp only [sumMatches] at ih1 ih2
    have h1 : sumK (matchingBlocks (a.take i) (b.take j)) ≤ j :=
      le_trans ih1 (by rw [List.length_take]; exact min_le_left _ _)
    have h2 : sumK (matchingBlocks (a.drop (i + k)) (b.drop (j + k))) ≤ b.length - (j + k) :=
      le_trans ih2 (by rw [List.length_drop])
    simp only
    omega

theorem findLongestMatch_self {α : Type} [DecidableEq α] (a : List α) (h : a ≠ []) :
    findLongestMatch a a = (0, 0, a.length) := by
  have hlen : 0 < a.length := List.length_pos.mpr h
  have hmax : a.length ≤ (findLongestMatch a a).2.2 := by
    have := findLongestMatch_max a a 0 0 hlen hlen
    simpa [commonRun_self] using this
  have hk0 : (findLongestMatch a a).2.2 ≠ 0 := by omega
  have hb := findLongestMatch_bounds a a hk0
  have hki : (findLongestMatch a a).2.2 ≤ a.length - (findLongestMatch a a).1 := by
    rw [hb.2.2]
    simpa using commonRun_le_left (a.drop (findLongestMatch a a).1)
      (a.drop (findLongestMatch a a).2.1)
  have hkj : (findLongestMatch a a).2.2 ≤ a.length - (findLongestMatch a a).2.1 := by
    rw [hb.2.2]
    simpa using commonRun_le_right (a.drop (findLongestMatch a a).1)
      (a.drop (findLongestMatch a a).2.1)
  have hi0 : (findLongestMatch a a).1 = 0 := by omega
  have hj0 : (findLongestMatch a a).2.1 = 0 := by omega
  have hkl : (findLongestMatch a a).2.2 = a.length := by omega
  rcases hfm : findLongestMatch a a with ⟨i, j, k⟩
  rw [hfm] at hi0 hj0 hkl
  simp only at hi0 hj0 hkl
  rw [hi0, hj0, hkl]

theorem matchingBlocks_nil_nil {α : Type} [DecidableEq α] :
    matchingBlocks ([] : List α) [] = [] :=
  matchingBlocks_eq_nil rfl

theorem matchingBlocks_self {α : Type} [DecidableEq α] (a : List α) (h : a ≠ []) :
    matchingBlocks a a = [(0, 0, a.length)] := by
  have hfm := findLongestMatch_self a h
  have hlen : 0 < a.length := List.length_pos.mpr h
  rw [matchingBlocks_eq_cons hfm (by omega)]
  have h1 : a.take 0 = [] := List.take_zero a
  have h2 : a.drop (0 + a.length) = [] := by
    simp
  rw [h1, h2, matchingBlocks_nil_nil]
  simp

theorem sumMatches_self {α : Type} [DecidableEq α] (a : List α) :
    sumMatches a a = a.length := by
  by_cases h : a = []
  · subst h
    simp [sumMatches, matchingBlocks_nil_nil, sumK]
  · simp [sumMatches, matchingBlocks_self a h, sumK]

theorem findLongestMatch_pos_of_common {α : Type} [DecidableEq α]
    (a b : List α) (x : α) (hxa : x ∈ a) (hxb : x ∈ b) :
    (findLongestMatch a b).2.2 ≠ 0 := by
  obtain ⟨s, t, rfl⟩ := List.append_of_mem hxa
  obtain ⟨u, v, rfl⟩ := List.append_of_mem hxb
  have hi : s.length < (s ++ x :: t).length := by simp
  have hj : u.length < (u ++ x :: v).length := by simp
  have hrun : 1 ≤ commonRun ((s ++ x :: t).drop s.length) ((u ++ x :: v).drop u.length) := by
    rw [List.drop_left, List.drop_left]
    exact commonRun_pos_of_head_eq x t v
  have := findLongestMatch_max (s ++ x :: t) (u ++ x :: v) s.length u.length hi hj
  omega

theorem exists_common_of_findLongestMatch_pos {α : Type} [DecidableEq α]
    (a b : List α) (h : (findLongestMatch a b).2.2 ≠ 0) :
    ∃ x, x ∈ a ∧ x ∈ b := by
  have hb := findLongestMatch_bounds a b h
  have hrun : commonRun (a.drop (findLongestMatch a b).1) (b.drop (findLongestMatch a b).2.1) ≠ 0 := by
    rw [← hb.2.2]; exact h
  obtain ⟨c, xs, ys, hx, hy⟩ := commonRun_pos _ _ hrun
  refine ⟨c, ?_, ?_⟩
  · have hc : c ∈ a.drop (findLongestMatch a b).1 := by
      rw [hx]; exact List.mem_cons_self _ _
    exact List.mem_of_mem_drop hc
  · have hc : c ∈ b.drop (findLongestMatch a b).2.1 := by
      rw [hy]; exact List.mem_cons_self _ _
    exact List.mem_of_mem_drop hc

theorem one_le_sumMatches_of_pos {α : Type} [DecidableEq α] (a b : List α)
    (h : (findLongestMatch a b).2.2 ≠ 0) : 1 ≤ sumMatches a b := by
  rcases hm : findLongestMatch a b with ⟨i, j, k⟩
  rw [hm] at h
  simp only at h
  rw [sumMatches, matchingBlocks_eq_cons hm h, sumK_append, sumK_cons]
  simp only
  omega

/-- The total matched count is zero exactly when the two sequences share
no common element. -/
theorem sumMatches_eq_zero_iff {α : Type} [DecidableEq α] (a b : List α) :
    sumMatches a b = 0 ↔ ∀ x ∈ a, x ∉ b := by
  constructor
  · intro h0 x hxa hxb
    have hk := findLongestMatch_pos_of_common a b x hxa hxb
    have := one_le_sumMatches_of_pos a b hk
    omega
  · intro hno
    by_cases hk : (findLongestMatch a b).2.2 = 0
    · rw [sumMatches, matchingBlocks_eq_nil hk]
      rfl
    · obtain ⟨x, hxa, hxb⟩ := exists_common_of_findLongestMatch_pos a b hk
      exact absurd hxb (hno x hxa)

/-- When the greedy alignment matches every element of both sequences,
the sequences are equal. -/
theorem eq_of_sumMatches {α : Type} [DecidableEq α] (a b : List α) :
    sumMatches a b = a.length → sumMatches a b = b.length → a = b := by
  induction a, b using matchingBlocks_induct with
  | base a b h =>
    intro hA hB
    have h0 : sumMatches a b = 0 := by
      rw [sumMatches, matchingBlocks_eq_nil h]; rfl
    have ha : a = [] := List.length_eq_zero.mp (by omega)
    have hb : b = [] := List.length_eq_zero.mp (by omega)
    rw [ha, hb]
  | step a b i j k hm hk0 ih1 ih2 =>
    intro hA hB
    have hbd := findLongestMatch_bounds a b (by rw [hm]; simpa using hk0)
    rw [hm] at hbd
    have hi : i < a.length := hbd.1
    have hj : j < b.length := hbd.2.1
    have hkc : k = commonRun (a.drop i) (b.drop j) := hbd.2.2
    have hki : k ≤ a.length - i := by
      rw [hkc]; simpa using commonRun_le_left (a.drop i) (b.drop j)
    have hkj : k ≤ b.length - j := by
      rw [hkc]; simpa using commonRun_le_right (a.drop i) (b.drop j)
    have hsum : sumMatches a b =
        sumMatches (a.take i) (b.take j) +
          (k + sumMatches (a.drop (i + k)) (b.drop (j + k))) := by
      simp only [sumMatches]
      rw [matchingBlocks_eq_cons hm hk0, sumK_append, sumK_cons, sumK_map_shift]
    have hs1a : sumMatches (a.take i) (b.take j) ≤ i :=
      le_trans (sumMatches_le_left _ _) (by rw [List.length_take]; exact min_le_left _ _)
    have hs1b : sumMatches (a.take i) (b.take j) ≤ j :=
      le_trans (sumMatches_le_right _ _) (by rw [List.length_take]; exact min_le_left _ _)
    have hs2a : sumMatches (a.drop (i + k)) (b.drop (j + k)) ≤ a.length - (i + k) :=
      le_trans (sumMatches_le_left _ _) (le_of_eq (by rw [List.length_drop]))
    have hs2b : sumMatches (a.drop (i + k)) (b.drop (j + k)) ≤ b.length - (j + k) :=
      le_trans (sumMatches_le_right _ _) (le_of_eq (by rw [List.length_drop]))
    have e1a : sumMatches (a.take i) (b.take j) = i := by omega
    have e1b : sumMatches (a.take i) (b.take j) = j := by omega
    have e2a : sumMatches (a.drop (i + k)) (b.drop (j + k)) = a.length - (i + k) := by omega
    have e2b : sumMatches (a.drop (i + k)) (b.drop (j + k)) = b.length - (j + k) := by omega
    have hTake : a.take i = b.take j :=
      ih1 (by rw [e1a, List.length_take, Nat.min_eq_left hi.le])
        (by rw [e1b, List.length_take, Nat.min_eq_left hj.le])
    have hDrop : a.drop (i + k) = b.drop (j + k) :=
      ih2 (by rw [e2a, List.length_drop]) (by rw [e2b, List.length_drop])
    have hMid : (a.drop i).take k = (b.drop j).take k := by
      rw [hkc]; exact commonRun_take _ _
    have hda : (a.drop i).drop k = a.drop (i + k) := by
      rw [List.drop_drop, Nat.add_comm]
    have hdb : (b.drop j).drop k = b.drop (j + k) := by
      rw [List.drop_drop, Nat.add_comm]
    calc a = a.take i ++ a.drop i := (List.take_append_drop i a).symm
      _ = a.take i ++ ((a.drop i).take k ++ (a.drop i).drop k) := by
          rw [List.take_append_drop k (a.drop i)]
      _ = b.take j ++ ((b.drop j).take k ++ (b.drop j).drop k) := by
          rw [hTake, hMid, hda, hdb, hDrop]
      _ = b.take j ++ b.drop j := by rw [List.take_append_drop k (b.drop j)]
      _ = b := List.take_append_drop j b

/-- The ratio formula: `ratio * (lenA + lenB) = 2 * M`, including the
both-empty convention (where both sides are 0). -/
theorem ratio_mul_length {α : Type} [DecidableEq α] (a b : List α) :
    ratio a b * ((a.length : ℚ) + (b.length : ℚ)) = 2 * (sumMatches a b : ℚ) := by
  by_cases h : a.length + b.length = 0
  · have hM : sumMatches a b = 0 := by
      have := sumMatches_le_left a b; omega
    have ha : a.length = 0 := by omega
    have hb : b.length = 0 := by omega
    rw [ratio, if_pos h, hM, ha, hb]
    norm_num
  · rw [ratio, if_neg h]
    have hne : ((a.length : ℚ) + (b.length : ℚ)) ≠ 0 := by
      have : 0 < a.length + b.length := Nat.pos_of_ne_zero h
      have : (0 : ℚ) < (a.length : ℚ) + (b.length : ℚ) := by exact_mod_cast this
      exact ne_of_gt this
    rw [div_mul_cancel₀ _ hne]

/-- The ratio is 1 exactly when the sequences are identical. -/
theorem ratio_eq_one_iff {α : Type} [DecidableEq α] (a b : List α) :
    ratio a b = 1 ↔ a = b := by
  constructor
  · intro h1
    by_cases h : a.length + b.length = 0
    · have ha : a = [] := List.length_eq_zero.mp (by omega)
      have hb : b = [] := List.length_eq_zero.mp (by omega)
      rw [ha, hb]
    · rw [ratio, if_neg h] at h1
      have hne : ((a.length : ℚ) + (b.length : ℚ)) ≠ 0 := by
        have : 0 < a.length + b.length := Nat.pos_of_ne_zero h
        have : (0 : ℚ) < (a.length : ℚ) + (b.length : ℚ) := by exact_mod_cast this
        exact ne_of_gt this
      rw [div_eq_one_iff_eq hne] at h1
      have h2M : 2 * sumMatches a b = a.length + b.length := by exact_mod_cast h1
      have hMa := sumMatches_le_left a b
      have hMb := sumMatches_le_right a b
      exact eq_of_sumMatches a b (by omega) (by omega)
  · intro he
    subst he
    by_cases h : a.length + a.length = 0
    · rw [ratio, if_pos h]
    · rw [ratio, if_neg h, sumMatches_self]
      have hne : ((a.length : ℚ) + (a.length : ℚ)) ≠ 0 := by
        have : 0 < a.length + a.length := Nat.pos_of_ne_zero h
        have : (0 : ℚ) < (a.length : ℚ) + (a.length : ℚ) := by exact_mod_cast this
        exact ne_of_gt this
      rw [div_eq_one_iff_eq hne]
      ring

/-- The ratio is 0 exactly when the sequences share no common element and
are not both empty (both-empty inputs give ratio 1 by convention). -/
theorem ratio_eq_zero_iff {α : Type} [DecidableEq α] (a b : List α) :
    ratio a b = 0 ↔ ((∀ x ∈ a, x ∉ b) ∧ ¬(a = [] ∧ b = [])) := by
  by_cases h : a.length + b.length = 0
  · have ha : a = [] := List.length_eq_zero.mp (by omega)
    have hb : b = [] := List.length_eq_zero.mp (by omega)
    rw [ratio, if_pos h]
    simp [ha, hb]
  · rw [ratio, if_neg h]
    have hne : ((a.length : ℚ) + (b.length : ℚ)) ≠ 0 := by
      have : 0 < a.length + b.length := Nat.pos_of_ne_zero h
      have : (0 : ℚ) < (a.length : ℚ) + (b.length : ℚ) := by exact_mod_cast this
      exact ne_of_gt this
    constructor
    · intro h0
      rcases div_eq_zero_iff.mp h0 with h2 | h2
      · have hM : sumMatches a b = 0 := by
          have : (sumMatches a b : ℚ) = 0 := by linarith
          exact_mod_cast this
        refine ⟨(sumMatches_eq_zero_iff a b).mp hM, ?_⟩
        rintro ⟨rfl, rfl⟩
        simp at h
      · exact absurd h2 hne
    · rintro ⟨hno, _⟩
      have hM : sumMatches a b = 0 := (sumMatches_eq_zero_iff a b).mpr hno
      rw [hM]
      simp

theorem chained_mono {i j i' j' la lb : Nat} {l : List (Nat × Nat × Nat)}
    (hi : i' ≤ i) (hj : j' ≤ j) (h : Chained i j l la lb) :
    Chained i' j' l la lb := by
  cases l with
  | nil => exact ⟨le_trans hi h.1, le_trans hj h.2⟩
  | cons blk rest =>
    obtain ⟨ai, bj, size⟩ := blk
    exact ⟨le_trans hi h.1, le_trans hj h.2.1, h.2.2⟩

theorem chained_append {m n la lb : Nat} {l2 : List (Nat × Nat × Nat)} :
    ∀ {i j : Nat} {l1 : List (Nat × Nat × Nat)},
      Chained i j l1 m n → Chained m n l2 la lb →
        Chained i j (l1 ++ l2) la lb := by
  intro i j l1
  induction l1 generalizing i j with
  | nil =>
    intro h1 h2
    exact chained_mono h1.1 h1.2 h2
  | cons blk rest ih =>
    intro h1 h2
    obtain ⟨ai, bj, size⟩ := blk
    exact ⟨h1.1, h1.2.1, h1.2.2.1, ih h1.2.2.2 h2⟩

theorem chained_shift {m n : Nat} (p q : Nat) {l : List (Nat × Nat × Nat)} :
    ∀ {i j : Nat}, Chained i j l m n →
      Chained (i + p) (j + q)
        (l.map fun blk => (blk.1 + p, blk.2.1 + q, blk.2.2)) (m + p) (n + q) := by
  induction l with
  | nil =>
    intro i j h
    obtain ⟨h1, h2⟩ := h
    exact ⟨by omega, by omega⟩
  | cons blk rest ih =>
    intro i j h
    obtain ⟨ai, bj, size⟩ := blk
    obtain ⟨h1, h2, h3, h4⟩ := h
    simp only [List.map_cons]
    refine ⟨by omega, by omega, h3, ?_⟩
    have h5 := ih h4
    have e1 : ai + size + p = ai + p + size := by omega
    have e2 : bj + size + q = bj + q + size := by omega
    rwa [e1, e2] at h5

/-- The greedy alignment produces a chained block list over the full
ranges of both sequences (the spec's non-overlap invariant). -/
theorem matchingBlocks_chained {α : Type} [DecidableEq α] (a b : List α) :
    Chained 0 0 (matchingBlocks a b) a.length b.length := by
  induction a, b using matchingBlocks_induct with
  | base a b h =>
    rw [matchingBlocks_eq_nil h]
    exact ⟨Nat.zero_le _, Nat.zero_le _⟩
  | step a b i j k hm hk0 ih1 ih2 =>
    have hbd := findLongestMatch_bounds a b (by rw [hm]; simpa using hk0)
    rw [hm] at hbd
    have hi : i < a.length := hbd.1
    have hj : j < b.length := hbd.2.1
    have hkc : k = commonRun (a.drop i) (b.drop j) := hbd.2.2
    have hki : k ≤ a.length - i := by
      rw [hkc]; simpa using commonRun_le_left (a.drop i) (b.drop j)
    have hkj : k ≤ b.length - j := by
      rw [hkc]; simpa using commonRun_le_right (a.drop i) (b.drop j)
    rw [matchingBlocks_eq_cons hm hk0]
    have hL : Chained 0 0 (matchingBlocks (a.take i) (b.take j)) i j := by
      have := ih1
      rwa [List.length_take, List.length_take, Nat.min_eq_left hi.le,
        Nat.min_eq_left hj.le] at this
    have hR : Chained (i + k) (j + k)
        ((matchingBlocks (a.drop (i + k)) (b.drop (j + k))).map
          fun blk => (blk.1 + (i + k), blk.2.1 + (j + k), blk.2.2))
        a.length b.length := by
      have h2 := chained_shift (i + k) (j + k) ih2
      rw [List.length_drop, List.length_drop] at h2
      have ea : a.length - (i + k) + (i + k) = a.length := by omega
      have eb : b.length - (j + k) + (j + k) = b.length := by omega
      rw [ea, eb] at h2
      simpa using h2
    exact chained_append hL ⟨le_rfl, le_rfl, by omega, hR⟩

theorem tilesFrom_gapOp {i j la lb : Nat} (hi : i ≤ la) (hj : j ≤ lb) :
    tilesFrom i j (gapOp i la j lb) la lb = true := by
  by_cases h1 : i < la <;> by_cases h2 : j < lb
  · simp [gapOp, h1, h2, tilesFrom, hi, hj]
  · have hj' : j = lb := by omega
    simp [gapOp, h1, h2, tilesFrom, hi, hj']
  · have hi' : i = la := by omega
    simp [gapOp, h1, h2, tilesFrom, hi', hj]
  · have hi' : i = la := by omega
    have hj' : j = lb := by omega
    simp [gapOp, h1, h2, tilesFrom, hi', hj']

theorem tilesFrom_opcodesAux {la lb : Nat} :
    ∀ (blocks : List (Nat × Nat × Nat)) (i j : Nat),
      Chained i j blocks la lb →
        tilesFrom i j (opcodesAux la lb i j blocks) la lb = true := by
  intro blocks
  induction blocks with
  | nil =>
    intro i j h
    obtain ⟨h1, h2⟩ := h
    exact tilesFrom_gapOp h1 h2
  | cons blk rest ih =>
    intro i j h
    obtain ⟨ai, bj, size⟩ := blk
    obtain ⟨h1, h2, h3, h4⟩ := h
    have hrec := ih (ai + size) (bj + size) h4
    have heq : tilesFrom ai bj
        (⟨Tag.equal, ai, ai + size, bj, bj + size⟩ ::
          opcodesAux la lb (ai + size) (bj + size) rest) la lb = true := by
      simp [tilesFrom, hrec]
    by_cases g1 : i < ai <;> by_cases g2 : j < bj
    · simp [opcodesAux, gapOp, g1, g2, tilesFrom, h1, h2, hrec]
    · have hj' : j = bj := by omega
      simp [opcodesAux, gapOp, g1, g2, tilesFrom, h1, hj', hrec]
    · have hi' : i = ai := by omega
      simp [opcodesAux, gapOp, g1, g2, tilesFrom, hi', h2, hrec]
    · have hi' : i = ai := by omega
      have hj' : j = bj := by omega
      simp [opcodesAux, gapOp, g1, g2, tilesFrom, hi', hj', hrec]

/-- The hunks produced for any pair of sequences exactly tile the full
ranges `[0, lenA)` and `[0, lenB)`. -/
theorem opcodes_tile {α : Type} [DecidableEq α] (a b : List α) :
    tilesFrom 0 0 (opcodes a b) a.length b.length = true :=
  tilesFrom_opcodesAux (matchingBlocks a b) 0 0 (matchingBlocks_chained a b)

/-- Comparing a sequence against itself yields only equal hunks. -/
theorem opcodes_self_equal {α : Type} [DecidableEq α] (a : List α) :
    ∀ op ∈ opcodes a a, op.tag = Tag.equal := by
  by_cases h : a = []
  · subst h
    intro op hop
    simp [opcodes, matchingBlocks_nil_nil, opcodesAux, gapOp] at hop
  · intro op hop
    rw [opcodes, matchingBlocks_self a h] at hop
    have hlen : 0 < a.length := List.length_pos.mpr h
    simp [opcodesAux, gapOp, hlen] at hop
    rw [hop]

theorem splitLinesAux_ne_nil : ∀ (cur s : List Char), splitLinesAux cur s ≠ []
  | _, [] => by simp [splitLinesAux]
  | cur, c :: rest => by
    by_cases h : c = '\n'
    · simp [splitLinesAux, h]
    · simpa [splitLinesAux, h] using splitLinesAux_ne_nil (c :: cur) rest

theorem splitLines_ne_nil (s : List Char) : splitLines s ≠ [] :=
  splitLinesAux_ne_nil [] s

theorem findSectionAux_not_found (pat : List Char) :
    ∀ (lines : List (List Char)) (i : Nat),
      (∀ l ∈ lines, containsSub pat l = false) → findSectionAux pat i lines = 0
  | [], _, _ => rfl
  | l :: rest, i, h => by
    have hl : containsSub pat l = false := h l (List.mem_cons_self l rest)
    simp only [findSectionAux, hl, Bool.false_eq_true, if_false]
    exact findSectionAux_not_found pat rest (i + 1)
      (fun x hx => h x (List.mem_cons_of_mem l hx))

theorem sectionReportAux_eq_filterMap :
    ∀ l : List (Nat × List Char × List Char),
      sectionReportAux l = some (l.filterMap fun x =>
        if x.2.1.length < 10 then none
        else some (x.1, ((splitLines x.2.1).headD []).take 50, ratio x.2.1 x.2.2 * 100))
  | [] => rfl
  | (i, dsec, psec) :: rest => by
    have ih := sectionReportAux_eq_filterMap rest
    by_cases h : dsec.length < 10
    · simp only [sectionReportAux, h, if_pos, List.filterMap_cons]
      simpa [h] using ih
    · rcases hsl : splitLines dsec with _ | ⟨fl, fls⟩
      · exact absurd hsl (splitLines_ne_nil dsec)
      · simp only [sectionReportAux, h, if_neg, not_false_iff, hsl, List.head?_cons, ih,
          List.filterMap_cons, List.headD_cons]

theorem sectionReport_eq_spec (docling precision : List Char) :
    sectionReport docling precision = some (sectionEntriesSpec docling precision) := by
  rw [sectionReport, sectionEntriesSpec]
  exact sectionReportAux_eq_filterMap _

theorem countP_or_add_and (l : List Issue) (p q : Issue → Bool) :
    l.countP (fun i => p i || q i) + l.countP (fun i => p i && q i) =
      l.countP p + l.countP q := by
  induction l with
  | nil => rfl
  | cons a l ih =>
    simp only [List.countP_cons]
    cases hp : p a <;> cases hq : q a <;> simp [hp, hq] <;> omega

theorem countP_eq_of_forall (l : List Issue) (p q : Issue → Bool)
    (h : ∀ i : Issue, p i = q i) : l.countP p = l.countP q := by
  induction l with
  | nil => rfl
  | cons a l ih => simp [List.countP_cons, h a, ih]

/-- C1: for the sequence aligner, the similarity ratio satisfies
`ratio * (lenA + lenB) = 2 * M`; the ratio is 1.0 iff the two sequences
are identical; outside the both-empty convention case the ratio is 0.0
iff the sequences share no common element; both-empty inputs yield
ratio 1.0; and comparing any document against itself yields ratio 1.0
with all hunks tagged equal. -/
theorem C1_ratio_contract {α : Type} [DecidableEq α] (a b d : List α) :
    ratio a b * ((a.length : ℚ) + (b.length : ℚ)) = 2 * (sumMatches a b : ℚ)
    ∧ (ratio a b = 1 ↔ a = b)
    ∧ (¬(a = [] ∧ b = []) → (ratio a b = 0 ↔ ∀ x ∈ a, x ∉ b))
    ∧ (a = [] → b = [] → ratio a b = 1)
    ∧ ratio d d = 1
    ∧ (∀ op ∈ opcodes d d, op.tag = Tag.equal) := by
  refine ⟨ratio_mul_length a b, ratio_eq_one_iff a b, ?_, ?_,
    (ratio_eq_one_iff d d).mpr rfl, opcodes_self_equal d⟩
  · intro hne
    rw [ratio_eq_zero_iff]
    exact ⟨fun hz => hz.1, fun hno => ⟨hno, hne⟩⟩
  · rintro rfl rfl
    rfl

/-- Witness for C1 at concrete inputs, discharging its hypotheses. -/
theorem C1_ratio_contract_witness :
    (ratio ([ 'a' ] : List Char) [ 'b' ] = 0 ↔
      ∀ x ∈ ([ 'a' ] : List Char), x ∉ ([ 'b' ] : List Char))
    ∧ ratio ([] : List Char) [] = 1 :=
  ⟨(C1_ratio_contract ([ 'a' ] : List Char) [ 'b' ] [ 'c' ]).2.2.1 (by decide),
   (C1_ratio_contract ([] : List Char) [] []).2.2.2.1 rfl rfl⟩

/-- C2: windowed diffing truncates the two inputs before alignment (the
window is `take n` of both line sequences, as in the scripts' slicing of
the inputs), and the hunks of the diff of the truncated inputs exactly
tile `[0, n)` on each side with no gaps and no overlaps. -/
theorem C2_window_tiling (a b : List (List Char)) (n : Nat)
    (ha : n ≤ a.length) (hb : n ≤ b.length) :
    tilesFrom 0 0 (opcodes (a.take n) (b.take n)) n n = true := by
  have h := opcodes_tile (a.take n) (b.take n)
  rwa [List.length_take, List.length_take, Nat.min_eq_left ha, Nat.min_eq_left hb] at h

/-- Witness for C2 at a concrete window. -/
theorem C2_window_tiling_witness :
    tilesFrom 0 0
      (opcodes (([ "ab".toList, "cd".toList, "ef".toList ] : List (List Char)).take 2)
        (([ "ab".toList, "xy".toList ] : List (List Char)).take 2)) 2 2 = true :=
  C2_window_tiling [ "ab".toList, "cd".toList, "ef".toList ]
    [ "ab".toList, "xy".toList ] 2 (by decide) (by decide)

/-- C5 counterexample: the scalar ratio is not symmetric; the greedy
tie-breaking changes the total matched count when the arguments swap. -/
theorem C5_counterexample :
    ratio ("abcdefg".toList) ("deghiab".toList) ≠
      ratio ("deghiab".toList) ("abcdefg".toList) := by
  have h1 : sumMatches "abcdefg".toList "deghiab".toList = 2 := by decide
  have h2 : sumMatches "deghiab".toList "abcdefg".toList = 3 := by decide
  have hL1 : ("abcdefg".toList).length = 7 := by decide
  have hL2 : ("deghiab".toList).length = 7 := by decide
  intro heq
  simp only [ratio, h1, h2, hL1, hL2] at heq
  norm_num at heq

/-- C5 amended: the ratio is symmetric at its extreme values — equality
with 1 and equality with 0 are each symmetric in the two arguments — but
the scalar ratio itself is not symmetric in general. -/
theorem C5_extreme_symmetry {α : Type} [DecidableEq α] (a b : List α) :
    (ratio a b = 1 ↔ ratio b a = 1) ∧ (ratio a b = 0 ↔ ratio b a = 0) := by
  constructor
  · rw [ratio_eq_one_iff, ratio_eq_one_iff]
    exact eq_comm
  · rw [ratio_eq_zero_iff, ratio_eq_zero_iff]
    constructor
    · rintro ⟨h1, h2⟩
      exact ⟨fun x hxb hxa => h1 x hxa hxb, fun hz2 => h2 ⟨hz2.2, hz2.1⟩⟩
    · rintro ⟨h1, h2⟩
      exact ⟨fun x hxa hxb => h1 x hxb hxa, fun hz2 => h2 ⟨hz2.2, hz2.1⟩⟩

/-- C6 counterexample: two documents sharing zero lines whose
whole-document similarity is nonzero, because the script's overall
comparison is character-level, not line-level. -/
theorem C6_counterexample :
    (∀ l ∈ splitLines ("ab".toList), l ∉ splitLines ("ba".toList))
    ∧ fastSim ("ab".toList) ("ba".toList) ≠ 0 := by
  constructor
  · decide
  · have hM : sumMatches "ab".toList "ba".toList = 1 := by decide
    have hL1 : ("ab".toList).length = 2 := by decide
    have hL2 : ("ba".toList).length = 2 := by decide
    intro h
    simp only [fastSim, ratio, hM, hL1, hL2] at h
    norm_num at h

/-- C6 amended: two texts sharing zero characters (and not both empty)
yield a whole-document similarity of exactly 0. -/
theorem C6_zero_ratio (a b : List Char)
    (h1 : ∀ c ∈ a, c ∉ b) (h2 : ¬(a = [] ∧ b = [])) :
    fastSim a b = 0 := by
  have hz : ratio a b = 0 := (ratio_eq_zero_iff a b).mpr ⟨h1, h2⟩
  rw [fastSim, hz]
  norm_num

/-- Witness for C6 at concrete inputs. -/
theorem C6_zero_ratio_witness : fastSim ([ 'a' ] : List Char) [ 'b' ] = 0 :=
  C6_zero_ratio [ 'a' ] [ 'b' ] (by decide) (by decide)

/-- C3 counterexample: the bucket counts are not a partition of the
issues. A missing `## 1 Introduction` line is counted in two buckets
(missing_headers and wrong_joins), and a missing plain-text line is
counted in none, so the four bucket counts sum to 2 and to 0 over a
single issue respectively. -/
theorem C3_counterexample :
    (missing_breaks [⟨IKind.missing, "## 1 Introduction".toList⟩] +
      extra_breaks [⟨IKind.missing, "## 1 Introduction".toList⟩] +
      missing_headers [⟨IKind.missing, "## 1 Introduction".toList⟩] +
      wrong_joins [⟨IKind.missing, "## 1 Introduction".toList⟩] = 2)
    ∧ (missing_breaks [⟨IKind.missing, "hello".toList⟩] +
      extra_breaks [⟨IKind.missing, "hello".toList⟩] +
      missing_headers [⟨IKind.missing, "hello".toList⟩] +
      wrong_joins [⟨IKind.missing, "hello".toList⟩] = 0) := by
  decide

/-- C3 amended: each bucket count is a total, deterministic count over
the issues, but the buckets neither partition nor cover them: the two
blank buckets do partition the blank issues by kind, while the heading
bucket overlaps the wrong-joins bucket exactly on missing header lines
containing the word Introduction, and non-blank non-header lines without
the searched words fall in no bucket. -/
theorem C3_bucket_structure (issues : List Issue) :
    missing_breaks issues + extra_breaks issues =
      issues.countP (fun i => i.content.isEmpty)
    ∧ issues.countP (fun i => (isMissing i.kind && isPrefixL hhPat i.content) &&
        ((isExtra i.kind && containsSub absWord i.content) ||
          containsSub introWord i.content)) =
      issues.countP (fun i => (isMissing i.kind && isPrefixL hhPat i.content) &&
        containsSub introWord i.content) := by
  constructor
  · have hoa := countP_or_add_and issues
      (fun i => isMissing i.kind && i.content.isEmpty)
      (fun i => isExtra i.kind && i.content.isEmpty)
    have hor : issues.countP (fun i => (isMissing i.kind && i.content.isEmpty) ||
        (isExtra i.kind && i.content.isEmpty)) =
        issues.countP (fun i => i.content.isEmpty) := by
      refine countP_eq_of_forall issues _ _ ?_
      intro i
      obtain ⟨kind, content⟩ := i
      cases kind <;> simp [isMissing, isExtra]
    have hand : issues.countP (fun i => (isMissing i.kind && i.content.isEmpty) &&
        (isExtra i.kind && i.content.isEmpty)) = issues.countP (fun _ => false) := by
      refine countP_eq_of_forall issues _ _ ?_
      intro i
      obtain ⟨kind, content⟩ := i
      cases kind <;> simp [isMissing, isExtra]
    rw [List.countP_false] at hand
    simp only [missing_breaks, extra_breaks]
    rw [← hoa, hor, hand]
    simp
  · refine countP_eq_of_forall issues _ _ ?_
    intro i
    obtain ⟨kind, content⟩ := i
    cases kind <;> simp [isMissing, isExtra]

/-- C4 counterexample: section pairing is purely positional. The
reference has sections titled intro/Apple/Banana and the candidate has
intro/Banana; the report pairs the reference Apple section with the
candidate Banana section by position, and the reference Banana section
appears nowhere in the report (no unmatched-section record exists). -/
theorem C4_counterexample :
    (((sectionReport
        ("intro intro\n## Apple\naaaaaaaaaa\n## Banana\nbbbbbbbbbb".toList)
        ("intro intro\n## Banana\nbbbbbbbbbb".toList)).getD []).map
          fun e => (e.1, e.2.1)) =
      [(0, "intro intro".toList), (1, "Apple".toList)]
    ∧ ((splitSections
        ("intro intro\n## Apple\naaaaaaaaaa\n## Banana\nbbbbbbbbbb".toList)).map
          fun s => (splitLines s).headD []) =
      ["intro intro".toList, "Apple".toList, "Banana".toList]
    ∧ ((splitSections ("intro intro\n## Banana\nbbbbbbbbbb".toList)).map
          fun s => (splitLines s).headD []) =
      ["intro intro".toList, "Banana".toList] := by
  decide

/-- C4 amended: the section loop pairs sections purely positionally —
the report is exactly a filterMap over the enumerated zip of the first
five sections of each document (no title matching) — and its length is
bounded by the shorter section list, so sections beyond the common
positional prefix are silently dropped with no unmatched-section
reporting. -/
theorem C4_positional_pairing (d p : List Char) :
    sectionReport d p = some (sectionEntriesSpec d p)
    ∧ (sectionEntriesSpec d p).length ≤
        min (splitSections d).length (splitSections p).length
    ∧ (sectionEntriesSpec d p).length ≤ 5 := by
  refine ⟨sectionReport_eq_spec d p, ?_, ?_⟩
  · have h1 := List.length_filterMap_le
      (fun x : Nat × List Char × List Char =>
        if x.2.1.length < 10 then none
        else some (x.1, ((splitLines x.2.1).headD []).take 50, ratio x.2.1 x.2.2 * 100))
      ((((splitSections d).take 5).zip ((splitSections p).take 5)).enum)
    rw [sectionEntriesSpec]
    have h2 : ((((splitSections d).take 5).zip ((splitSections p).take 5)).enum).length =
        min ((splitSections d).take 5).length ((splitSections p).take 5).length := by
      rw [List.enum_length, List.length_zip]
    rw [h2] at h1
    have t1 := min_le_left ((splitSections d).take 5).length ((splitSections p).take 5).length
    have t2 := min_le_right ((splitSections d).take 5).length ((splitSections p).take 5).length
    have t3 := List.length_take_le 5 (splitSections d)
    have t4 := List.length_take_le 5 (splitSections p)
    have t5 : ((splitSections d).take 5).length ≤ (splitSections d).length := by
      rw [List.length_take]; exact min_le_right _ _
    have t6 : ((splitSections p).take 5).length ≤ (splitSections p).length := by
      rw [List.length_take]; exact min_le_right _ _
    have t7 := Nat.le_min.mpr ⟨le_trans t1 t5, le_trans t2 t6⟩
    exact le_trans h1 t7
  · have h1 := List.length_filterMap_le
      (fun x : Nat × List Char × List Char =>
        if x.2.1.length < 10 then none
        else some (x.1, ((splitLines x.2.1).headD []).take 50, ratio x.2.1 x.2.2 * 100))
      ((((splitSections d).take 5).zip ((splitSections p).take 5)).enum)
    rw [sectionEntriesSpec]
    have h2 : ((((splitSections d).take 5).zip ((splitSections p).take 5)).enum).length =
        min ((splitSections d).take 5).length ((splitSections p).take 5).length := by
      rw [List.enum_length, List.length_zip]
    rw [h2] at h1
    have t1 := min_le_left ((splitSections d).take 5).length ((splitSections p).take 5).length
    have t3 := List.length_take_le 5 (splitSections d)
    exact le_trans h1 (le_trans t1 t3)

/-- C7 counterexample: when the `## Abstract` start marker is absent,
`find_section` returns 0 and the caller treats 0 as falsy and skips the
sub-document comparison entirely, instead of returning a sub-document
starting at line 0. -/
theorem C7_counterexample :
    (∀ l ∈ ([ "x".toList, "## 1 Introduction".toList ] : List (List Char)),
      containsSub abstractPat l = false)
    ∧ abstractSim [ "x".toList, "## 1 Introduction".toList ]
        [ "x".toList, "## 1 Introduction".toList ] = none := by
  decide

/-- C7 amended: `find_section` returns 0 when no line contains the
marker, and the abstract-section comparison is skipped (returns no
sub-document comparison) exactly when any of its four marker indices is
0 — including the not-found fallback — so a missing marker leads to a
skip, not a line-0 sub-document. -/
theorem C7_marker_fallback (ls : List (List Char)) (pat : List Char)
    (d p : List (List Char)) :
    ((∀ l ∈ ls, containsSub pat l = false) → find_section ls pat = 0)
    ∧ (abstractSim d p = none ↔
        (find_section d abstractPat = 0 ∨ find_section p abstractPat = 0 ∨
          find_section d introPat = 0 ∨ find_section p introPat = 0)) := by
  constructor
  · intro h
    exact findSectionAux_not_found pat ls 0 h
  · simp only [abstractSim]
    by_cases hc : find_section d abstractPat ≠ 0 ∧ find_section p abstractPat ≠ 0 ∧
        find_section d introPat ≠ 0 ∧ find_section p introPat ≠ 0
    · rw [if_pos hc]
      constructor
      · intro hsome
        exact absurd hsome (Option.some_ne_none _)
      · rintro (h | h | h | h)
        · exact absurd h hc.1
        · exact absurd h hc.2.1
        · exact absurd h hc.2.2.1
        · exact absurd h hc.2.2.2
    · rw [if_neg hc]
      constructor
      · intro _
        rw [not_and_or, not_and_or, not_and_or, not_not, not_not, not_not, not_not] at hc
        tauto
      · intro _
        rfl

/-- Witness for C7 at concrete inputs. -/
theorem C7_marker_fallback_witness :
    find_section [ "hello".toList ] ("xyz".toList) = 0 :=
  (C7_marker_fallback [ "hello".toList ] ("xyz".toList) [] []).1 (by decide)

/-- C8: degenerate inputs have defined, non-throwing outputs: the section
loop never hits its one raising operation (the first-line index of a kept
section) for any pair of texts, and both-empty inputs give ratio 1 rather
than a division error. -/
theorem C8_total_outputs (d p : List Char) (docling precision : List (List Char)) :
    (∃ v, sectionReport d p = some v)
    ∧ ratio ([] : List Char) [] = 1
    ∧ ((abstractSim docling precision).isSome = true ∨
        abstractSim docling precision = none) := by
  refine ⟨⟨sectionEntriesSpec d p, sectionReport_eq_spec d p⟩, rfl, ?_⟩
  cases habs : abstractSim docling precision
  · exact Or.inr rfl
  · exact Or.inl rfl

/-- C9: the comparison computations are deterministic functions of their
immutable inputs: equal inputs produce identical reports. -/
theorem C9_deterministic (f p d f2 p2 d2 : List Char)
    (hf : f = f2) (hp : p = p2) (hd : d = d2) :
    compareModesReport f p d = compareModesReport f2 p2 d2
    ∧ sectionReport p d = sectionReport p2 d2 := by
  subst hf
  subst hp
  subst hd
  exact ⟨rfl, rfl⟩

/-- Witness for C9 at concrete inputs. -/
theorem C9_deterministic_witness :
    compareModesReport ("a".toList) ("b".toList) ("c".toList) =
      compareModesReport ("a".toList) ("b".toList) ("c".toList) :=
  (C9_deterministic ("a".toList) ("b".toList) ("c".toList)
    ("a".toList) ("b".toList) ("c".toList) rfl rfl rfl).1

/-- C10 counterexample: the wrong-joins count is not the sum of the
extra-with-Abstract count and the either-kind-with-Introduction count:
an extra line containing both words is counted once, not twice. -/
theorem C10_counterexample :
    wrong_joins [⟨IKind.extra, "Abstract Introduction".toList⟩] ≠
      ([⟨IKind.extra, "Abstract Introduction".toList⟩] : List Issue).countP
          (fun i => isExtra i.kind && containsSub absWord i.content) +
        ([⟨IKind.extra, "Abstract Introduction".toList⟩] : List Issue).countP
          (fun i => containsSub introWord i.content) := by
  decide

/-- C10 amended: wrong_joins counts the union — issues that are extra
lines containing Abstract or lines of either kind containing
Introduction, counted once when both apply (inclusion-exclusion) — and
in particular a missing line containing Introduction increments it. -/
theorem C10_wrong_joins_structure (issues : List Issue) (c : List Char) :
    (wrong_joins issues +
        issues.countP (fun i => (isExtra i.kind && containsSub absWord i.content) &&
          containsSub introWord i.content) =
      issues.countP (fun i => isExtra i.kind && containsSub absWord i.content) +
        issues.countP (fun i => containsSub introWord i.content))
    ∧ (containsSub introWord c = true →
        wrong_joins (⟨IKind.missing, c⟩ :: issues) = wrong_joins issues + 1) := by
  constructor
  · simpa [wrong_joins] using countP_or_add_and issues
      (fun i => isExtra i.kind && containsSub absWord i.content)
      (fun i => containsSub introWord i.content)
  · intro h
    simp [wrong_joins, List.countP_cons, h, isExtra]

/-- Witness for C10 at a concrete issue list. -/
theorem C10_wrong_joins_structure_witness :
    wrong_joins [⟨IKind.missing, "Introduction".toList⟩] = wrong_joins [] + 1 :=
  (C10_wrong_joins_structure [] ("Introduction".toList)).2 (by decide)

end Transmutation

